import Mathlib

/-!
Shallow embedding of the SQL sanitization core of the flowbit-vanna-backend
service (src/main.py), together with proofs about its behavior.

Strings are modelled as `List Char`. The Python regular-expression operations
used by the source are embedded as follows:

* `re.search(r"\bKW\b", s, re.I)` for an all-letter keyword KW is modelled by
  `searchWordCI`: a case-insensitive occurrence of KW whose preceding and
  following characters (when they exist) are not word characters. Case
  insensitivity is modelled with `Char.toLower`, which matches the regex
  behavior on ASCII text.
* `re.sub(bad, good, s, flags=re.I)` for a nonempty literal pattern `bad` is
  modelled by `subCI`: a single left-to-right scan replacing each
  non-overlapping case-insensitive occurrence of the pattern.
* `str.strip()` and `str.rstrip(";")` are modelled by `pyStrip` and
  `rstripSemi` over the Python ASCII whitespace set.

`sanitize_sql` embeds the function of the same name (src/main.py lines
119-144); `DANGEROUS` embeds the blocked-keyword scan of the regex defined at
lines 115-117; `fixes` and `applyFixes` embed the identifier-fix table and
loop at lines 127-138; `llm_postprocess` embeds the code-fence stripping
performed on the generator response at lines 106-110. `HTTPException` raising
is modelled by the `Except HttpError` error monad.
-/

/-- Word characters of the regex class backslash-w, restricted to ASCII as in
the source keywords: letters, digits, or underscore. -/
def isWordChar (c : Char) : Bool := c.isAlphanum || c == '_'

/-- Case-insensitive test that `pat` is a prefix of the second argument,
comparing characters through `Char.toLower`. -/
def ciStartsWith : List Char → List Char → Bool
  | [], _ => true
  | _ :: _, [] => false
  | p :: ps, c :: cs => (p.toLower == c.toLower) && ciStartsWith ps cs

/-- Fuel-indexed worker for `subCI`; the fuel dominates the length of the
scanned list so the recursion is structural. -/
def subFuel (pat rep : List Char) : Nat → List Char → List Char
  | _, [] => []
  | 0, s => s
  | f + 1, c :: cs =>
    if 0 < pat.length ∧ ciStartsWith pat (c :: cs) = true then
      rep ++ subFuel pat rep f ((c :: cs).drop pat.length)
    else
      c :: subFuel pat rep f cs

/-- Embedding of `re.sub(pat, rep, s, flags=re.I)` for a nonempty literal
pattern: scan left to right, replacing each non-overlapping case-insensitive
occurrence of `pat` by `rep`. -/
def subCI (pat rep s : List Char) : List Char := subFuel pat rep s.length s

/-- Matcher for a keyword at the head of the remaining text: the keyword
characters must match case-insensitively and, when the keyword is exhausted,
the following character (if any) must not be a word character. This is the
right word boundary of the regex. -/
def matchKwAt : List Char → List Char → Bool
  | [], [] => true
  | [], c :: _ => !isWordChar c
  | _ :: _, [] => false
  | k :: ks, c :: cs => (k.toLower == c.toLower) && matchKwAt ks cs

/-- Left word boundary at position `i` of `s`: either the start of the string
or a non-word character just before `i`. -/
def prevOk (s : List Char) (i : Nat) : Bool :=
  i == 0 || !isWordChar (s.getD (i - 1) ' ')

/-- A case-insensitive, word-boundary-delimited occurrence of the all-letter
keyword `kw` starting at position `i` of `s`. -/
def wordMatchAt (kw s : List Char) (i : Nat) : Bool :=
  prevOk s i && matchKwAt kw (s.drop i)

/-- Embedding of `re.search(r"\bKW\b", s, re.I)` viewed as a Boolean: does a
word-bounded case-insensitive occurrence of `kw` exist anywhere in `s`. -/
def searchWordCI (kw s : List Char) : Bool :=
  (List.range (s.length + 1)).any (fun i => wordMatchAt kw s i)

/-- Number of word-bounded case-insensitive occurrences of `kw` in `s`,
counted by starting position. -/
def countWordCI (kw s : List Char) : Nat :=
  (List.range (s.length + 1)).countP (fun i => wordMatchAt kw s i)

/-- The blocked mutation keywords of the DANGEROUS regex
(src/main.py lines 115-117). -/
def DANGEROUS_keywords : List (List Char) :=
  ["INSERT".data, "UPDATE".data, "DELETE".data, "DROP".data, "ALTER".data,
   "TRUNCATE".data, "CREATE".data, "GRANT".data, "REVOKE".data]

/-- Embedding of `DANGEROUS.search(sql)`: since every alternative of the
regex consists solely of word characters, the alternation with surrounding
word boundaries matches exactly when one of the keywords matches with word
boundaries. -/
def DANGEROUS (s : List Char) : Bool :=
  DANGEROUS_keywords.any (fun kw => searchWordCI kw s)

/-- The identifier-fix table of `sanitize_sql` (src/main.py lines 127-135),
in dictionary insertion order. -/
def fixes : List (List Char × List Char) :=
  [("vendorid".data, "\"vendorId\"".data),
   ("invoiceid".data, "\"invoiceId\"".data),
   ("customerid".data, "\"customerId\"".data),
   ("paymentid".data, "\"paymentId\"".data),
   ("totalamount".data, "\"totalAmount\"".data),
   ("totalvalue".data, "\"totalValue\"".data),
   ("invoicedate".data, "\"invoiceDate\"".data)]

/-- The identifier-fix loop of `sanitize_sql` (src/main.py lines 137-138):
each substitution is applied over the whole string, in table order. -/
def applyFixes (s : List Char) : List Char :=
  fixes.foldl (fun acc pr => subCI pr.1 pr.2 acc) s

/-- The Python string whitespace set used by `str.strip()`. -/
def pySpace (c : Char) : Bool :=
  c == ' ' || c == '\t' || c == '\n' || c == '\r' || c == '\x0b' || c == '\x0c'

/-- Characters removable from the end of the string by
`strip().rstrip(";")`: whitespace or a semicolon. -/
def wsSemi (c : Char) : Bool := pySpace c || c == ';'

/-- Embedding of `str.strip()`: remove whitespace from both ends. -/
def pyStrip (s : List Char) : List Char :=
  ((s.dropWhile pySpace).reverse.dropWhile pySpace).reverse

/-- Embedding of `str.rstrip(";")`: remove trailing semicolons only. -/
def rstripSemi (s : List Char) : List Char :=
  (s.reverse.dropWhile (fun c => c == ';')).reverse

/-- The payload of a raised `HTTPException`: status code and detail text. -/
structure HttpError where
  status : Nat
  detail : String
deriving DecidableEq

/-- Embedding of `sanitize_sql` (src/main.py lines 119-144): block any
dangerous keyword, require a SELECT, apply the identifier fixes, and append
a default `LIMIT 500` when the fixed string has no LIMIT keyword. -/
def sanitize_sql (s : List Char) : Except HttpError (List Char) :=
  if DANGEROUS s then
    .error ⟨400, "Unsafe SQL blocked. Only SELECT allowed."⟩
  else if !searchWordCI "SELECT".data s then
    .error ⟨400, "Only SELECT queries are allowed."⟩
  else
    let fixed := applyFixes s
    if !searchWordCI "LIMIT".data fixed then
      .ok (rstripSemi (pyStrip fixed) ++ " LIMIT 500".data)
    else
      .ok fixed

/-- The backtick character, U+0060. -/
def btick : Char := Char.ofNat 96

/-- Embedding of `re.sub(r"^```[a-zA-Z]*", "", s)`: without MULTILINE the
anchor matches only at the start of the string, so at most the leading fence
delimiter and its language tag are removed. -/
def stripLeadingFence (s : List Char) : List Char :=
  if s.take 3 = [btick, btick, btick] then (s.drop 3).dropWhile Char.isAlpha else s

/-- Embedding of `re.sub(r"```$", "", s)`: the dollar anchor matches at the
end of the string or just before a single trailing newline, so at most one
trailing triple backtick in one of those two positions is removed. -/
def stripTrailingTicks (s : List Char) : List Char :=
  if s.reverse.take 3 = [btick, btick, btick] then (s.reverse.drop 3).reverse
  else if s.reverse.take 4 = ['\n', btick, btick, btick] then
    ('\n' :: s.reverse.drop 4).reverse
  else s

/-- Embedding of the post-processing of the generator response inside
`llm_generate_sql` (src/main.py lines 106-110): strip, remove a leading code
fence, strip, remove a trailing triple backtick, strip. -/
def llm_postprocess (raw : List Char) : List Char :=
  pyStrip (stripTrailingTicks (pyStrip (stripLeadingFence (pyStrip raw))))

/-- The suffixes of the keyword remainder IMIT, used while reasoning about
occurrences of LIMIT surviving the identifier substitutions. -/
def imitTails : List (List Char) :=
  [['I', 'M', 'I', 'T'], ['M', 'I', 'T'], ['I', 'T'], ['T'], []]

/-- Does `pat` occur contiguously (case-sensitively) anywhere in `s`. -/
def occursIn (pat s : List Char) : Bool :=
  (List.range (s.length + 1)).any (fun i => List.isPrefixOf pat (s.drop i))

theorem uint32_le_iff {a b : UInt32} : a ≤ b ↔ a.toNat ≤ b.toNat := by
  rw [UInt32.le_def, BitVec.le_def]
  rfl

theorem toNat_ofNat_valid {n : Nat} (h : n < 55296) : (Char.ofNat n).toNat = n := by
  have hv : n.isValidChar := Or.inl h
  rw [Char.ofNat, dif_pos hv]
  simp [Char.ofNatAux, Char.toNat, UInt32.toNat, BitVec.toNat, BitVec.ofNatLt]

theorem isUpper_iff (c : Char) : c.isUpper = true ↔ 65 ≤ c.toNat ∧ c.toNat ≤ 90 := by
  simp [Char.isUpper, uint32_le_iff]
  rw [Nat.mod_eq_of_lt (by decide), Nat.mod_eq_of_lt (by decide)]
  exact Iff.rfl

theorem isLower_iff (c : Char) : c.isLower = true ↔ 97 ≤ c.toNat ∧ c.toNat ≤ 122 := by
  simp [Char.isLower, uint32_le_iff]
  rw [Nat.mod_eq_of_lt (by decide), Nat.mod_eq_of_lt (by decide)]
  exact Iff.rfl

theorem toLower_of_upper {c : Char} (h : 65 ≤ c.toNat ∧ c.toNat ≤ 90) :
    c.toLower = Char.ofNat (c.toNat + 32) := by
  rw [Char.toLower, if_pos]
  omega

theorem toLower_of_not_upper {c : Char} (h : ¬(65 ≤ c.toNat ∧ c.toNat ≤ 90)) :
    c.toLower = c := by
  rw [Char.toLower, if_neg]
  omega

/-- Lowercasing a character does not change whether it is a word character. -/
theorem isWordChar_toLower (c : Char) : isWordChar c.toLower = isWordChar c := by
  by_cases h : 65 ≤ c.toNat ∧ c.toNat ≤ 90
  · rw [toLower_of_upper h]
    have h32 : (Char.ofNat (c.toNat + 32)).toNat = c.toNat + 32 :=
      toNat_ofNat_valid (by omega)
    simp only [isWordChar, Char.isAlphanum, Char.isAlpha]
    have h1 : (Char.ofNat (c.toNat + 32)).isLower = true := by
      rw [isLower_iff, h32]
      omega
    have h2 : c.isUpper = true := by
      rw [isUpper_iff]
      omega
    rw [h1, h2]
    simp
  · rw [toLower_of_not_upper h]

theorem subFuel_congr (pat rep : List Char) :
    ∀ f g s, s.length ≤ f → s.length ≤ g → subFuel pat rep f s = subFuel pat rep g s := by
  intro f
  induction f with
  | zero =>
    intro g s hf _
    have : s = [] := List.eq_nil_of_length_eq_zero (Nat.le_zero.mp hf)
    subst this
    cases g <;> rfl
  | succ f ih =>
    intro g s hf hg
    cases s with
    | nil => cases g <;> rfl
    | cons c cs =>
      cases g with
      | zero => simp at hg
      | succ g =>
        show subFuel pat rep (f + 1) (c :: cs) = subFuel pat rep (g + 1) (c :: cs)
        rw [subFuel, subFuel]
        by_cases h : 0 < pat.length ∧ ciStartsWith pat (c :: cs) = true
        · rw [if_pos h, if_pos h]
          have hlen : ((c :: cs).drop pat.length).length ≤ f := by
            simp only [List.length_drop, List.length_cons]
            simp only [List.length_cons] at hf
            omega
          have hlen2 : ((c :: cs).drop pat.length).length ≤ g := by
            simp only [List.length_drop, List.length_cons]
            simp only [List.length_cons] at hg
            omega
          rw [ih g ((c :: cs).drop pat.length) hlen hlen2]
        · rw [if_neg h, if_neg h]
          have h1 : cs.length ≤ f := by
            simp only [List.length_cons] at hf; omega
          have h2 : cs.length ≤ g := by
            simp only [List.length_cons] at hg; omega
          rw [ih g cs h1 h2]

theorem subCI_nil (pat rep : List Char) : subCI pat rep [] = [] := rfl

/-- Clean unfolding equation for `subCI`, matching the scan of `re.sub`. -/
theorem subCI_cons (pat rep : List Char) (c : Char) (cs : List Char) :
    subCI pat rep (c :: cs) =
      if 0 < pat.length ∧ ciStartsWith pat (c :: cs) = true then
        rep ++ subCI pat rep ((c :: cs).drop pat.length)
      else
        c :: subCI pat rep cs := by
  show subFuel pat rep (c :: cs).length (c :: cs) = _
  rw [List.length_cons, subFuel]
  by_cases h : 0 < pat.length ∧ ciStartsWith pat (c :: cs) = true
  · rw [if_pos h, if_pos h]
    have hlen : ((c :: cs).drop pat.length).length ≤ cs.length := by
      simp only [List.length_drop, List.length_cons]
      omega
    rw [subFuel_congr pat rep cs.length ((c :: cs).drop pat.length).length _ hlen le_rfl]
    rfl
  · rw [if_neg h, if_neg h]
    rfl

theorem getD_drop (l : List Char) (n m : Nat) (d : Char) :
    (l.drop n).getD m d = l.getD (n + m) d := by
  simp [List.getD_eq_getElem?_getD, List.getElem?_drop]

theorem prevOk_zero (s : List Char) : prevOk s 0 = true := rfl

theorem wordMatchAt_pos_lt {k : Char} {ks s : List Char} {i : Nat}
    (h : wordMatchAt (k :: ks) s i = true) : i < s.length := by
  simp only [wordMatchAt, Bool.and_eq_true] at h
  rcases h with ⟨-, h2⟩
  by_contra hlt
  have hnil : s.drop i = [] := List.drop_eq_nil_iff.mpr (by omega)
  rw [hnil] at h2
  exact absurd h2 (by simp [matchKwAt])

theorem searchWordCI_eq_true {k : Char} {ks s : List Char} :
    searchWordCI (k :: ks) s = true ↔ ∃ i, wordMatchAt (k :: ks) s i = true := by
  constructor
  · intro h
    rcases List.any_eq_true.mp h with ⟨i, -, hi⟩
    exact ⟨i, hi⟩
  · intro ⟨i, hi⟩
    exact List.any_eq_true.mpr ⟨i, List.mem_range.mpr (by
      have := wordMatchAt_pos_lt hi; omega), hi⟩

theorem searchWordCI_eq_false {k : Char} {ks s : List Char} :
    searchWordCI (k :: ks) s = false ↔ ∀ i, wordMatchAt (k :: ks) s i = false := by
  constructor
  · intro h i
    by_contra hne
    have hi : wordMatchAt (k :: ks) s i = true := by
      cases hw : wordMatchAt (k :: ks) s i
      · exact absurd hw hne
      · rfl
    rw [searchWordCI_eq_true.mpr ⟨i, hi⟩] at h
    cases h
  · intro h
    cases hs : searchWordCI (k :: ks) s
    · rfl
    · rcases searchWordCI_eq_true.mp hs with ⟨i, hi⟩
      rw [h i] at hi
      cases hi

theorem countWordCI_eq_zero {k : Char} {ks s : List Char}
    (h : searchWordCI (k :: ks) s = false) : countWordCI (k :: ks) s = 0 := by
  refine List.countP_eq_zero.mpr ?_
  intro i _
  rw [searchWordCI_eq_false.mp h i]
  simp

/-- A tail after which matching may stop: empty, or starting with a character
that is not a word character and matches no character of the keyword. -/
def inertTail (kw t : List Char) : Prop :=
  t = [] ∨ ∃ d t2, t = d :: t2 ∧ isWordChar d = false ∧
    ∀ k ∈ kw, (k.toLower == d.toLower) = false

theorem inertTail_weaken {k : Char} {ks t : List Char}
    (h : inertTail (k :: ks) t) : inertTail ks t := by
  rcases h with h | ⟨d, t2, ht, hw, hm⟩
  · exact Or.inl h
  · exact Or.inr ⟨d, t2, ht, hw, fun x hx => hm x (List.mem_cons_of_mem k hx)⟩

theorem matchKwAt_append_inert :
    ∀ (kw x t : List Char), inertTail kw t → matchKwAt kw (x ++ t) = matchKwAt kw x := by
  intro kw
  induction kw with
  | nil =>
    intro x t ht
    cases x with
    | nil =>
      rcases ht with ht | ⟨d, t2, ht, hw, -⟩
      · rw [ht]
        rfl
      · rw [List.nil_append, ht]
        show (!isWordChar d) = true
        rw [hw]
        rfl
    | cons c xs => rfl
  | cons k ks ih =>
    intro x t ht
    cases x with
    | nil =>
      rcases ht with ht | ⟨d, t2, ht2, -, hm⟩
      · rw [ht]
        rfl
      · rw [List.nil_append, ht2]
        show ((k.toLower == d.toLower) && matchKwAt ks t2) = matchKwAt (k :: ks) []
        rw [hm k (List.mem_cons_self k ks)]
        rfl
    | cons c xs =>
      show ((k.toLower == c.toLower) && matchKwAt ks (xs ++ t)) = _
      rw [ih xs t (inertTail_weaken ht)]
      rfl

theorem wordMatchAt_append_inert {kw x t : List Char} {i : Nat}
    (hi : i ≤ x.length) (ht : inertTail kw t) :
    wordMatchAt kw (x ++ t) i = wordMatchAt kw x i := by
  unfold wordMatchAt
  have hdrop : (x ++ t).drop i = x.drop i ++ t := List.drop_append_of_le_length hi
  rw [hdrop, matchKwAt_append_inert kw (x.drop i) t ht]
  cases i with
  | zero => rfl
  | succ j =>
    have hj : j < x.length := by omega
    unfold prevOk
    rw [Nat.succ_sub_one, List.getD_append x t ' ' j hj]

theorem wordMatchAt_append_shift {kw x t : List Char} {q : Nat} :
    wordMatchAt kw (x ++ t) (x.length + (q + 1)) = wordMatchAt kw t (q + 1) := by
  unfold wordMatchAt prevOk
  have hdrop : (x ++ t).drop (x.length + (q + 1)) = t.drop (q + 1) := List.drop_append _
  rw [hdrop]
  have hidx : x.length + (q + 1) - 1 = x.length + q := by omega
  rw [hidx, List.getD_append_right x t ' ' (x.length + q) (by omega)]
  have : x.length + q - x.length = q := by omega
  rw [this]
  have h1 : (x.length + (q + 1) == 0) = false := by simp
  have h2 : (q + 1 == 0) = false := by simp
  have h3 : q + 1 - 1 = q := by omega
  rw [h1, h2, h3]

theorem getD_mem_of_lt {l : List Char} {n : Nat} {d : Char} (h : n < l.length) :
    l.getD n d ∈ l := by
  rw [List.getD_eq_getElem?_getD, List.getElem?_eq_getElem h]
  exact List.getElem_mem h

theorem wordMatchAt_drop_down {kw s : List Char} {L i : Nat}
    (hL : L + 1 ≤ i) (h : wordMatchAt kw s i = true) :
    wordMatchAt kw (s.drop L) (i - L) = true := by
  simp only [wordMatchAt, Bool.and_eq_true] at h ⊢
  obtain ⟨hp, hm⟩ := h
  constructor
  · unfold prevOk at hp ⊢
    have h0 : (i == 0) = false := beq_eq_false_iff_ne.mpr (by omega)
    have h1 : (i - L == 0) = false := beq_eq_false_iff_ne.mpr (by omega)
    rw [h0] at hp
    rw [h1, getD_drop]
    have harith : L + (i - L - 1) = i - 1 := by omega
    rw [harith]
    simpa using hp
  · rw [List.drop_drop]
    have harith : L + (i - L) = i := by omega
    rw [harith]
    exact hm

theorem wordMatchAt_cons_down {kw cs : List Char} {c : Char} {j : Nat}
    (h : wordMatchAt kw (c :: cs) (j + 1) = true) :
    wordMatchAt kw cs j = true := by
  simp only [wordMatchAt, Bool.and_eq_true] at h ⊢
  obtain ⟨hp, hm⟩ := h
  refine ⟨?_, by rw [List.drop_succ_cons] at hm; exact hm⟩
  unfold prevOk at hp ⊢
  cases j with
  | zero => rfl
  | succ m =>
    have h0 : (m + 1 + 1 == 0) = false := beq_eq_false_iff_ne.mpr (by omega)
    have h1 : (m + 1 == 0) = false := beq_eq_false_iff_ne.mpr (by omega)
    rw [h0] at hp
    rw [h1]
    have harith : m + 1 + 1 - 1 = m + 1 := by omega
    rw [harith, List.getD_cons_succ] at hp
    have harith2 : m + 1 - 1 = m := by omega
    rw [harith2]
    simpa using hp

theorem wordMatchAt_cons_up {kw cs : List Char} {c : Char} {j : Nat}
    (h : wordMatchAt kw cs j = true) (hc : j = 0 → isWordChar c = false) :
    wordMatchAt kw (c :: cs) (j + 1) = true := by
  simp only [wordMatchAt, Bool.and_eq_true] at h ⊢
  obtain ⟨hp, hm⟩ := h
  refine ⟨?_, by rw [List.drop_succ_cons]; exact hm⟩
  unfold prevOk at hp ⊢
  have h0 : (j + 1 == 0) = false := beq_eq_false_iff_ne.mpr (by omega)
  rw [h0]
  cases j with
  | zero =>
    have harith : 0 + 1 - 1 = 0 := by omega
    rw [harith, List.getD_cons_zero, hc rfl]
    rfl
  | succ m =>
    have h1 : (m + 1 == 0) = false := beq_eq_false_iff_ne.mpr (by omega)
    rw [h1] at hp
    have harith : m + 1 + 1 - 1 = m + 1 := by omega
    rw [harith, List.getD_cons_succ]
    have harith2 : m + 1 - 1 = m := by omega
    rw [harith2] at hp
    simpa using hp

theorem wordMatchAt_prepend_up {kw rep t : List Char} {j : Nat} (hj : 1 ≤ j)
    (h : wordMatchAt kw t j = true) :
    wordMatchAt kw (rep ++ t) (rep.length + j) = true := by
  obtain ⟨q, rfl⟩ : ∃ q, j = q + 1 := ⟨j - 1, by omega⟩
  rw [wordMatchAt_append_shift]
  exact h

theorem ciStartsWith_getD :
    ∀ (pat s : List Char) (j : Nat), ciStartsWith pat s = true → j < pat.length →
      (s.getD j ' ').toLower = (pat.getD j ' ').toLower := by
  intro pat
  induction pat with
  | nil =>
    intro s j _ hj
    simp at hj
  | cons p ps ih =>
    intro s j h hj
    cases s with
    | nil => exact absurd h (by simp [ciStartsWith])
    | cons c cs =>
      simp only [ciStartsWith, Bool.and_eq_true, beq_iff_eq] at h
      obtain ⟨h1, h2⟩ := h
      cases j with
      | zero => simpa using h1.symm
      | succ m =>
        simp only [List.getD_cons_succ]
        exact ih cs m h2 (by simp only [List.length_cons] at hj; omega)

theorem wsSemi_not_word {d : Char} (h : wsSemi d = true) :
    isWordChar d = false ∧ d.toLower = d := by
  simp only [wsSemi, pySpace, Bool.or_eq_true, beq_iff_eq] at h
  rcases h with (((((h | h) | h) | h) | h) | h) | h <;> subst h <;> exact ⟨by decide, by decide⟩

theorem wsSemi_no_kw_match {d : Char} (hd : wsSemi d = true) {k : Char}
    (hk : isWordChar k.toLower = true) : (k.toLower == d.toLower) = false := by
  rcases wsSemi_not_word hd with ⟨hw, hl⟩
  cases he : (k.toLower == d.toLower) with
  | false => rfl
  | true =>
    have heq : k.toLower = d.toLower := by simpa using he
    rw [hl] at heq
    rw [heq] at hk
    rw [hk] at hw
    cases hw

theorem no_ci_overlap :
    ∀ (w pat cs : List Char),
      (∀ p ∈ pat, isWordChar p.toLower = true) →
      ¬(pat.length ≤ w.length ∧
        pat.map Char.toLower = (w.map Char.toLower).take pat.length) →
      matchKwAt w cs = true → ciStartsWith pat cs = false := by
  intro w
  induction w with
  | nil =>
    intro pat cs ha hav hm
    cases pat with
    | nil => exact absurd ⟨by simp, by simp⟩ hav
    | cons p ps =>
      cases cs with
      | nil => rfl
      | cons d ds =>
        have hd : isWordChar d = false := by simpa [matchKwAt] using hm
        show ((p.toLower == d.toLower) && ciStartsWith ps ds) = false
        have hp := ha p (List.mem_cons_self p ps)
        have hne : (p.toLower == d.toLower) = false := by
          cases he : (p.toLower == d.toLower) with
          | false => rfl
          | true =>
            have heq : p.toLower = d.toLower := by simpa using he
            rw [heq, isWordChar_toLower] at hp
            rw [hp] at hd
            cases hd
        rw [hne]
        rfl
  | cons x w2 ih =>
    intro pat cs ha hav hm
    cases cs with
    | nil => exact absurd hm (by simp [matchKwAt])
    | cons d ds =>
      simp only [matchKwAt, Bool.and_eq_true, beq_iff_eq] at hm
      obtain ⟨hxd, hrest⟩ := hm
      cases pat with
      | nil => exact absurd ⟨by simp, by simp⟩ hav
      | cons p ps =>
        show ((p.toLower == d.toLower) && ciStartsWith ps ds) = false
        cases he : (p.toLower == d.toLower) with
        | false => rw [Bool.false_and]
        | true =>
          have heq : p.toLower = d.toLower := by simpa using he
          have hps : ciStartsWith ps ds = false := by
            refine ih ps ds (fun q hq => ha q (List.mem_cons_of_mem p hq)) ?_ hrest
            intro ⟨hlen, hmap⟩
            refine hav ⟨?_, ?_⟩
            · simp only [List.length_cons]
              omega
            · simp only [List.map_cons, List.length_cons, List.take_succ_cons]
              rw [List.cons_eq_cons]
              exact ⟨heq.trans hxd.symm, hmap⟩
          rw [hps, Bool.and_false]

theorem subCI_cons_nomatch {pat rep : List Char} {c : Char} {cs : List Char}
    (h : ciStartsWith pat (c :: cs) = false) :
    subCI pat rep (c :: cs) = c :: subCI pat rep cs := by
  rw [subCI_cons, if_neg]
  rintro ⟨-, h2⟩
  rw [h] at h2
  cases h2

theorem imitTails_tail {x : Char} {w2 : List Char} (h : (x :: w2) ∈ imitTails) :
    w2 ∈ imitTails := by
  simp only [imitTails, List.mem_cons] at h
  rcases h with h | h | h | h | h | h <;>
    first
    | (rw [List.cons_eq_cons] at h; rcases h with ⟨-, h2⟩; subst h2; simp [imitTails])
    | (exact absurd h (by simp))

/-- A word-bounded remainder of LIMIT that holds at the head of `cs` still
holds after the substitution, because no pattern occurrence can begin inside
it or at its terminating boundary character. -/
theorem matchKwAt_subCI (pat rep : List Char)
    (ha : ∀ p ∈ pat, isWordChar p.toLower = true)
    (hav : ∀ w ∈ imitTails,
      ¬(pat.length ≤ w.length ∧
        pat.map Char.toLower = (w.map Char.toLower).take pat.length)) :
    ∀ (n : Nat) (cs w : List Char), cs.length ≤ n → w ∈ imitTails →
      matchKwAt w cs = true → matchKwAt w (subCI pat rep cs) = true := by
  intro n
  induction n with
  | zero =>
    intro cs w hn _ hm
    have hcs : cs = [] := List.eq_nil_of_length_eq_zero (by omega)
    subst hcs
    rw [subCI_nil]
    exact hm
  | succ n ih =>
    intro cs w hn hw hm
    cases cs with
    | nil =>
      rw [subCI_nil]
      exact hm
    | cons d ds =>
      cases w with
      | nil =>
        have hpref : ciStartsWith pat (d :: ds) = false :=
          no_ci_overlap [] pat (d :: ds) ha (hav [] (by simp [imitTails])) hm
        rw [subCI_cons_nomatch hpref]
        simpa [matchKwAt] using hm
      | cons x w2 =>
        have hpref : ciStartsWith pat (d :: ds) = false :=
          no_ci_overlap (x :: w2) pat (d :: ds) ha (hav _ hw) hm
        rw [subCI_cons_nomatch hpref]
        simp only [matchKwAt, Bool.and_eq_true] at hm ⊢
        obtain ⟨h1, h2⟩ := hm
        refine ⟨h1, ?_⟩
        refine ih ds w2 ?_ (imitTails_tail hw) h2
        simp only [List.length_cons] at hn
        omega

/-- Any word-bounded occurrence of LIMIT survives one identifier
substitution, and an occurrence away from the start stays away from the
start. -/
theorem wordMatchAt_limit_subCI (pat rep : List Char)
    (ha : ∀ p ∈ pat, isWordChar p.toLower = true)
    (hhead : ((pat.getD 0 ' ').toLower == 'l') = false)
    (hav : ∀ w ∈ imitTails,
      ¬(pat.length ≤ w.length ∧
        pat.map Char.toLower = (w.map Char.toLower).take pat.length)) :
    ∀ (n : Nat) (s : List Char) (i : Nat), s.length ≤ n →
      wordMatchAt "LIMIT".data s i = true →
      ∃ j, wordMatchAt "LIMIT".data (subCI pat rep s) j = true ∧ (j = 0 → i = 0) := by
  intro n
  induction n with
  | zero =>
    intro s i hn hm
    have hs : s = [] := List.eq_nil_of_length_eq_zero (by omega)
    subst hs
    exact absurd (wordMatchAt_pos_lt hm) (by simp)
  | succ n ih =>
    intro s i hn hm
    cases s with
    | nil => exact absurd (wordMatchAt_pos_lt hm) (by simp)
    | cons c cs =>
      by_cases hcond : 0 < pat.length ∧ ciStartsWith pat (c :: cs) = true
      · -- a pattern occurrence is replaced at the scan position
        rw [subCI_cons, if_pos hcond]
        obtain ⟨hplen, hci⟩ := hcond
        -- the LIMIT occurrence cannot start at position 0
        have hi0 : i ≠ 0 := by
          intro hi
          subst hi
          simp only [wordMatchAt, Bool.and_eq_true, List.drop_zero] at hm
          obtain ⟨-, hm2⟩ := hm
          simp only [matchKwAt, Bool.and_eq_true, beq_iff_eq] at hm2
          obtain ⟨hcl, -⟩ := hm2
          -- hcl : 'L'.toLower = c.toLower, so c.toLower = 'l'
          have hc : c.toLower = 'l' := hcl.symm
          have hp0 : (pat.getD 0 ' ').toLower = c.toLower := by
            have h := ciStartsWith_getD pat (c :: cs) 0 hci hplen
            simpa using h.symm
          rw [hp0.trans hc] at hhead
          simp at hhead
        -- the LIMIT occurrence cannot start inside the replaced span either
        have hige : pat.length + 1 ≤ i := by
          by_contra hlt
          have hile : 1 ≤ i ∧ i ≤ pat.length := by omega
          obtain ⟨hi1, hiL⟩ := hile
          simp only [wordMatchAt, Bool.and_eq_true] at hm
          obtain ⟨hp, -⟩ := hm
          unfold prevOk at hp
          rw [beq_eq_false_iff_ne.mpr (by omega : i ≠ 0)] at hp
          have hword : isWordChar ((c :: cs).getD (i - 1) ' ') = false := by
            simpa using hp
          have hmatch := ciStartsWith_getD pat (c :: cs) (i - 1) hci (by omega)
          have hmem : pat.getD (i - 1) ' ' ∈ pat := getD_mem_of_lt (by omega)
          have halpha := ha _ hmem
          rw [← hmatch, isWordChar_toLower] at halpha
          rw [halpha] at hword
          cases hword
        -- push the occurrence through the recursive call and the replacement
        have hdown : wordMatchAt "LIMIT".data ((c :: cs).drop pat.length) (i - pat.length) = true :=
          wordMatchAt_drop_down hige hm
        have hlen2 : ((c :: cs).drop pat.length).length ≤ n := by
          simp only [List.length_drop, List.length_cons]
          simp only [List.length_cons] at hn
          omega
        obtain ⟨j, hj, hj0⟩ := ih ((c :: cs).drop pat.length) (i - pat.length) hlen2 hdown
        have hj1 : 1 ≤ j := by
          rcases Nat.eq_zero_or_pos j with hj' | hj'
          · exact absurd (hj0 hj') (by omega)
          · exact hj'
        refine ⟨rep.length + j, wordMatchAt_prepend_up hj1 hj, ?_⟩
        intro h0
        omega
      · -- no replacement at the scan position
        rw [subCI_cons, if_neg hcond]
        cases i with
        | zero =>
          -- the occurrence is at the head: its body is untouched
          simp only [wordMatchAt, Bool.and_eq_true, List.drop_zero] at hm
          obtain ⟨-, hm2⟩ := hm
          simp only [matchKwAt, Bool.and_eq_true] at hm2
          obtain ⟨hcl, hrest⟩ := hm2
          refine ⟨0, ?_, fun _ => rfl⟩
          simp only [wordMatchAt, Bool.and_eq_true, List.drop_zero]
          refine ⟨rfl, ?_⟩
          simp only [matchKwAt, Bool.and_eq_true]
          refine ⟨hcl, ?_⟩
          exact matchKwAt_subCI pat rep ha hav cs.length cs ['I', 'M', 'I', 'T']
            le_rfl (by simp [imitTails]) hrest
        | succ m =>
          have hdown : wordMatchAt "LIMIT".data cs m = true := wordMatchAt_cons_down hm
          have hlen2 : cs.length ≤ n := by
            simp only [List.length_cons] at hn
            omega
          obtain ⟨j, hj, hj0⟩ := ih cs m hlen2 hdown
          refine ⟨j + 1, ?_, by omega⟩
          refine wordMatchAt_cons_up hj ?_
          intro hjz
          have hm0 : m = 0 := hj0 hjz
          subst hm0
          simp only [wordMatchAt, Bool.and_eq_true] at hm
          obtain ⟨hp, -⟩ := hm
          unfold prevOk at hp
          simpa using hp

theorem limit_data_eq : "LIMIT".data = 'L' :: ['I', 'M', 'I', 'T'] := rfl

/-- Search-level corollary: one identifier substitution cannot remove the
last word-bounded LIMIT occurrence. -/
theorem searchWordCI_limit_subCI (pat rep : List Char)
    (ha : ∀ p ∈ pat, isWordChar p.toLower = true)
    (hhead : ((pat.getD 0 ' ').toLower == 'l') = false)
    (hav : ∀ w ∈ imitTails,
      ¬(pat.length ≤ w.length ∧
        pat.map Char.toLower = (w.map Char.toLower).take pat.length))
    (s : List Char) (h : searchWordCI "LIMIT".data s = true) :
    searchWordCI "LIMIT".data (subCI pat rep s) = true := by
  rw [limit_data_eq] at h ⊢
  obtain ⟨i, hi⟩ := searchWordCI_eq_true.mp h
  rw [← limit_data_eq] at hi
  obtain ⟨j, hj, -⟩ :=
    wordMatchAt_limit_subCI pat rep ha hhead hav s.length s i le_rfl hi
  rw [limit_data_eq] at hj
  exact searchWordCI_eq_true.mpr ⟨j, hj⟩

theorem applyFixes_eq (s : List Char) :
    applyFixes s =
      subCI "invoicedate".data "\"invoiceDate\"".data
        (subCI "totalvalue".data "\"totalValue\"".data
          (subCI "totalamount".data "\"totalAmount\"".data
            (subCI "paymentid".data "\"paymentId\"".data
              (subCI "customerid".data "\"customerId\"".data
                (subCI "invoiceid".data "\"invoiceId\"".data
                  (subCI "vendorid".data "\"vendorId\"".data s)))))) := rfl

/-- The identifier-fix pass preserves the presence of a word-bounded LIMIT
occurrence. -/
theorem searchWordCI_limit_applyFixes (s : List Char)
    (h : searchWordCI "LIMIT".data s = true) :
    searchWordCI "LIMIT".data (applyFixes s) = true := by
  rw [applyFixes_eq]
  refine searchWordCI_limit_subCI _ _ (by decide) (by decide) (by decide) _ ?_
  refine searchWordCI_limit_subCI _ _ (by decide) (by decide) (by decide) _ ?_
  refine searchWordCI_limit_subCI _ _ (by decide) (by decide) (by decide) _ ?_
  refine searchWordCI_limit_subCI _ _ (by decide) (by decide) (by decide) _ ?_
  refine searchWordCI_limit_subCI _ _ (by decide) (by decide) (by decide) _ ?_
  refine searchWordCI_limit_subCI _ _ (by decide) (by decide) (by decide) _ ?_
  exact searchWordCI_limit_subCI _ _ (by decide) (by decide) (by decide) _ h

/-- Every string splits as leading whitespace, its stripped core, and a
trailing run of semicolons and whitespace removed by
`strip().rstrip(";")`. -/
theorem strip_decomposition (s : List Char) :
    ∃ a b, (∀ c ∈ a, wsSemi c = true) ∧ (∀ c ∈ b, wsSemi c = true) ∧
      s = a ++ rstripSemi (pyStrip s) ++ b := by
  refine ⟨s.takeWhile pySpace,
    (((s.dropWhile pySpace).reverse.dropWhile pySpace).takeWhile (fun c => c == ';')).reverse
      ++ ((s.dropWhile pySpace).reverse.takeWhile pySpace).reverse, ?_, ?_, ?_⟩
  · intro c hc
    have := List.mem_takeWhile_imp hc
    simp only [wsSemi, Bool.or_eq_true]
    exact Or.inl this
  · intro c hc
    rw [List.mem_append] at hc
    rcases hc with hc | hc
    · rw [List.mem_reverse] at hc
      have := List.mem_takeWhile_imp hc
      simp only [wsSemi, Bool.or_eq_true]
      exact Or.inr this
    · rw [List.mem_reverse] at hc
      have := List.mem_takeWhile_imp hc
      simp only [wsSemi, Bool.or_eq_true]
      exact Or.inl this
  · have rev_split : ∀ (p : Char → Bool) (l : List Char),
        l = (l.reverse.dropWhile p).reverse ++ (l.reverse.takeWhile p).reverse := by
      intro p l
      conv_lhs => rw [← List.reverse_reverse l]
      conv_lhs => rw [← List.takeWhile_append_dropWhile p l.reverse]
      rw [List.reverse_append]
    have hr : rstripSemi (pyStrip s) =
        (((s.dropWhile pySpace).reverse.dropWhile pySpace).dropWhile
          (fun c => c == ';')).reverse := by
      unfold rstripSemi pyStrip
      rw [List.reverse_reverse]
    rw [hr, List.append_assoc]
    conv_lhs => rw [← List.takeWhile_append_dropWhile pySpace s]
    congr 1
    conv_lhs => rw [rev_split pySpace (s.dropWhile pySpace)]
    rw [← List.append_assoc]
    congr 1
    conv_lhs =>
      rw [rev_split (fun c => c == ';')
        ((s.dropWhile pySpace).reverse.dropWhile pySpace).reverse]
    rw [List.reverse_reverse]

theorem inertTail_of_wsSemi {k : Char} {ks b : List Char}
    (hk : ∀ x ∈ k :: ks, isWordChar x.toLower = true)
    (hb : ∀ c ∈ b, wsSemi c = true) : inertTail (k :: ks) b := by
  cases b with
  | nil => exact Or.inl rfl
  | cons d b2 =>
    have hd := hb d (List.mem_cons_self d b2)
    exact Or.inr ⟨d, b2, rfl, (wsSemi_not_word hd).1,
      fun x hx => wsSemi_no_kw_match hd (hk x hx)⟩

theorem wordMatchAt_prepend_zero {kw a t : List Char} (hne : a ≠ [])
    (hlast : isWordChar (a.getD (a.length - 1) ' ') = false)
    (h : wordMatchAt kw t 0 = true) : wordMatchAt kw (a ++ t) a.length = true := by
  simp only [wordMatchAt, Bool.and_eq_true, List.drop_zero] at h
  obtain ⟨-, hm⟩ := h
  simp only [wordMatchAt, Bool.and_eq_true]
  have hlen : 0 < a.length := List.length_pos.mpr hne
  constructor
  · unfold prevOk
    rw [beq_eq_false_iff_ne.mpr (by omega : a.length ≠ 0)]
    rw [List.getD_append a t ' ' (a.length - 1) (by omega)]
    rw [hlast]
    rfl
  · rw [List.drop_left]
    exact hm

/-- A word-bounded occurrence survives surrounding the string with
whitespace and semicolons. -/
theorem searchWordCI_extend {k : Char} {ks : List Char}
    (hk : ∀ x ∈ k :: ks, isWordChar x.toLower = true)
    {u a b : List Char}
    (haa : ∀ c ∈ a, wsSemi c = true) (hb : ∀ c ∈ b, wsSemi c = true)
    (h : searchWordCI (k :: ks) u = true) :
    searchWordCI (k :: ks) (a ++ u ++ b) = true := by
  obtain ⟨i, hi⟩ := searchWordCI_eq_true.mp h
  have hilt : i < u.length := wordMatchAt_pos_lt hi
  have hi2 : wordMatchAt (k :: ks) (u ++ b) i = true := by
    rw [wordMatchAt_append_inert (by omega) (inertTail_of_wsSemi hk hb)]
    exact hi
  rw [List.append_assoc]
  cases a with
  | nil => exact searchWordCI_eq_true.mpr ⟨i, by simpa using hi2⟩
  | cons a0 a2 =>
    refine searchWordCI_eq_true.mpr ⟨(a0 :: a2).length + i, ?_⟩
    cases i with
    | zero =>
      rw [Nat.add_zero]
      refine wordMatchAt_prepend_zero (by simp) ?_ hi2
      have hmem : (a0 :: a2).getD ((a0 :: a2).length - 1) ' ' ∈ a0 :: a2 :=
        getD_mem_of_lt (by simp)
      exact (wsSemi_not_word (haa _ hmem)).1
    | succ m =>
      exact wordMatchAt_prepend_up (by omega) hi2

/-- Appending the default cap to a string with no word-bounded LIMIT yields
exactly one word-bounded LIMIT occurrence. -/
theorem countWordCI_limit_append_500 (u : List Char)
    (h : searchWordCI "LIMIT".data u = false) :
    countWordCI "LIMIT".data (u ++ " LIMIT 500".data) = 1 := by
  unfold countWordCI
  have hlen : (u ++ " LIMIT 500".data).length + 1 = (u.length + 1) + 10 := by
    rw [List.length_append]
    rfl
  rw [hlen, List.range_add, List.countP_append, List.countP_map]
  have hin : inertTail "LIMIT".data " LIMIT 500".data := by
    refine Or.inr ⟨' ', "LIMIT 500".data, rfl, by decide, by decide⟩
  have h1 : (List.range (u.length + 1)).countP
      (fun i => wordMatchAt "LIMIT".data (u ++ " LIMIT 500".data) i) = 0 := by
    rw [List.countP_congr (fun i hi => ?_)]
    · exact countWordCI_eq_zero (limit_data_eq ▸ h)
    · rw [List.mem_range] at hi
      constructor
      · intro hw
        rw [wordMatchAt_append_inert (by omega) hin] at hw
        exact hw
      · intro hw
        rw [wordMatchAt_append_inert (by omega) hin]
        exact hw
  have h2 : (List.range 10).countP
      ((fun i => wordMatchAt "LIMIT".data (u ++ " LIMIT 500".data) i) ∘
        (fun q => u.length + 1 + q)) = 1 := by
    rw [List.countP_congr (fun q hq => ?_)]
    · show (List.range 10).countP (fun q => wordMatchAt "LIMIT".data " LIMIT 500".data (q + 1)) = 1
      decide
    · show wordMatchAt "LIMIT".data (u ++ " LIMIT 500".data) (u.length + 1 + q) = true ↔
        wordMatchAt "LIMIT".data " LIMIT 500".data (q + 1) = true
      have harith : u.length + 1 + q = u.length + (q + 1) := by omega
      rw [harith, wordMatchAt_append_shift]
  rw [h1, h2]

/-- Stripping trailing whitespace and semicolons cannot create a word-bounded
LIMIT occurrence. -/
theorem searchWordCI_limit_stripped {fixed : List Char}
    (h : searchWordCI "LIMIT".data fixed = false) :
    searchWordCI "LIMIT".data (rstripSemi (pyStrip fixed)) = false := by
  cases hs : searchWordCI "LIMIT".data (rstripSemi (pyStrip fixed)) with
  | false => rfl
  | true =>
    obtain ⟨a, b, ha, hb, hsplit⟩ := strip_decomposition fixed
    rw [hsplit] at h
    rw [limit_data_eq] at hs h
    rw [searchWordCI_extend (by decide) ha hb hs] at h
    cases h

/-- C1: for every input string containing a case-insensitive,
word-boundary-delimited occurrence of any of the keywords INSERT, UPDATE,
DELETE, DROP, ALTER, TRUNCATE, CREATE, GRANT or REVOKE, at any position,
`sanitize_sql` fails with the HTTP 400 error whose detail is
"Unsafe SQL blocked. Only SELECT allowed." and produces no output. -/
theorem C1_mutation_guard_blocks (s : List Char) (h : DANGEROUS s = true) :
    sanitize_sql s = .error ⟨400, "Unsafe SQL blocked. Only SELECT allowed."⟩ := by
  simp [sanitize_sql, h]

/-- Witness for C1 at the spec example input, whose DROP keyword sits after a
semicolon inside the string. -/
theorem C1_mutation_guard_blocks_witness :
    DANGEROUS "select * from payments; DROP TABLE payments;".data = true ∧
    sanitize_sql "select * from payments; DROP TABLE payments;".data =
      .error ⟨400, "Unsafe SQL blocked. Only SELECT allowed."⟩ :=
  ⟨by decide, C1_mutation_guard_blocks _ (by decide)⟩

/-- C2 counterexample: the input `UPDATE invoices SET totalamount=0` lacks a
word-bounded SELECT, yet `sanitize_sql` raises the unsafe-SQL error, not the
InvalidSqlError required by the claim: the mutation guard fires first. -/
theorem C2_counterexample_mutation_guard_first :
    searchWordCI "SELECT".data "UPDATE invoices SET totalamount=0".data = false ∧
    sanitize_sql "UPDATE invoices SET totalamount=0".data =
      .error ⟨400, "Unsafe SQL blocked. Only SELECT allowed."⟩ ∧
    HttpError.mk 400 "Unsafe SQL blocked. Only SELECT allowed." ≠
      HttpError.mk 400 "Only SELECT queries are allowed." :=
  ⟨by decide, by rfl, by decide⟩

/-- C2 amended: every input lacking a word-bounded case-insensitive SELECT
and containing no blocked mutation keyword fails with the HTTP 400 error
"Only SELECT queries are allowed.". -/
theorem C2_amended_no_select_invalid (s : List Char)
    (hd : DANGEROUS s = false)
    (hs : searchWordCI "SELECT".data s = false) :
    sanitize_sql s = .error ⟨400, "Only SELECT queries are allowed."⟩ := by
  simp [sanitize_sql, hd, hs]

/-- Witness for the amended C2 on a harmless non-SELECT input. -/
theorem C2_amended_no_select_invalid_witness :
    DANGEROUS "show tables".data = false ∧
    searchWordCI "SELECT".data "show tables".data = false ∧
    sanitize_sql "show tables".data =
      .error ⟨400, "Only SELECT queries are allowed."⟩ :=
  ⟨by decide, by decide, C2_amended_no_select_invalid _ (by decide) (by decide)⟩

/-- C3 counterexample: sanitization is not idempotent. The first pass turns
`SELECT vendorid FROM invoices` into `SELECT "vendorId" FROM invoices
LIMIT 500`; feeding that output back rewrites the already-quoted identifier
again, doubling the quotes, so the identifier quoting differs. -/
theorem C3_counterexample_second_pass_requotes :
    sanitize_sql "SELECT vendorid FROM invoices".data =
      .ok "SELECT \"vendorId\" FROM invoices LIMIT 500".data ∧
    sanitize_sql "SELECT \"vendorId\" FROM invoices LIMIT 500".data =
      .ok "SELECT \"\"vendorId\"\" FROM invoices LIMIT 500".data ∧
    "SELECT \"\"vendorId\"\" FROM invoices LIMIT 500".data ≠
      "SELECT \"vendorId\" FROM invoices LIMIT 500".data :=
  ⟨by rfl, by rfl, by decide⟩

/-- C3 amended: identifier normalization is not idempotent. The fix key
re-matches case-insensitively inside its own quoted replacement, so a second
application of `sanitize_sql` rewrites `"vendorId"` to `""vendorId""`. -/
theorem C3_amended_requote_on_second_pass :
    sanitize_sql "SELECT \"vendorId\" FROM invoices LIMIT 500".data =
      .ok "SELECT \"\"vendorId\"\" FROM invoices LIMIT 500".data ∧
    occursIn "\"\"vendorId\"\"".data
      "SELECT \"\"vendorId\"\" FROM invoices LIMIT 500".data = true :=
  ⟨by rfl, by decide⟩

/-- C4 counterexample: the input `SELECT vendoridlimit FROM t` contains a
word-bounded SELECT, no blocked keyword, and no word-bounded LIMIT, yet the
identifier substitution manufactures one (`"vendorId"limit`), so the output
contains no appended `LIMIT 500` at all. -/
theorem C4_counterexample_vendoridlimit :
    DANGEROUS "SELECT vendoridlimit FROM t".data = false ∧
    searchWordCI "SELECT".data "SELECT vendoridlimit FROM t".data = true ∧
    searchWordCI "LIMIT".data "SELECT vendoridlimit FROM t".data = false ∧
    sanitize_sql "SELECT vendoridlimit FROM t".data =
      .ok "SELECT \"vendorId\"limit FROM t".data ∧
    occursIn " LIMIT 500".data "SELECT \"vendorId\"limit FROM t".data = false :=
  ⟨by decide, by decide, by decide, by rfl, by decide⟩

/-- C4 amended: when the guards pass and the identifier-substituted string
(the string the code actually tests) has no word-bounded LIMIT, the output is
that string with trailing whitespace and semicolons stripped followed by
` LIMIT 500`, and it contains exactly one word-bounded LIMIT occurrence. -/
theorem C4_amended_limit_appended_once (s : List Char)
    (hd : DANGEROUS s = false)
    (hsel : searchWordCI "SELECT".data s = true)
    (hlim : searchWordCI "LIMIT".data (applyFixes s) = false) :
    sanitize_sql s =
      .ok (rstripSemi (pyStrip (applyFixes s)) ++ " LIMIT 500".data) ∧
    countWordCI "LIMIT".data
      (rstripSemi (pyStrip (applyFixes s)) ++ " LIMIT 500".data) = 1 := by
  constructor
  · simp [sanitize_sql, hd, hsel, hlim]
  · exact countWordCI_limit_append_500 _ (searchWordCI_limit_stripped hlim)

/-- Witness for the amended C4 at the spec example input. -/
theorem C4_amended_limit_appended_once_witness :
    DANGEROUS "SELECT vendorid FROM invoices".data = false ∧
    searchWordCI "SELECT".data "SELECT vendorid FROM invoices".data = true ∧
    searchWordCI "LIMIT".data (applyFixes "SELECT vendorid FROM invoices".data) = false ∧
    (sanitize_sql "SELECT vendorid FROM invoices".data =
      .ok (rstripSemi (pyStrip (applyFixes "SELECT vendorid FROM invoices".data)) ++
        " LIMIT 500".data) ∧
    countWordCI "LIMIT".data
      (rstripSemi (pyStrip (applyFixes "SELECT vendorid FROM invoices".data)) ++
        " LIMIT 500".data) = 1) :=
  ⟨by decide, by decide, by decide,
    C4_amended_limit_appended_once _ (by decide) (by decide) (by decide)⟩

/-- C5 counterexample: on `SELECT a FROM t LIMIT totalamount` both guards
pass and a word-bounded LIMIT is present, so nothing is appended, but the
existing limit expression is not left unaltered: the identifier substitution
rewrites the fix key inside it. -/
theorem C5_counterexample_limit_value_rewritten :
    DANGEROUS "SELECT a FROM t LIMIT totalamount".data = false ∧
    searchWordCI "SELECT".data "SELECT a FROM t LIMIT totalamount".data = true ∧
    searchWordCI "LIMIT".data "SELECT a FROM t LIMIT totalamount".data = true ∧
    sanitize_sql "SELECT a FROM t LIMIT totalamount".data =
      .ok "SELECT a FROM t LIMIT \"totalAmount\"".data ∧
    occursIn "LIMIT totalamount".data
      "SELECT a FROM t LIMIT totalamount".data = true ∧
    occursIn "LIMIT totalamount".data
      "SELECT a FROM t LIMIT \"totalAmount\"".data = false :=
  ⟨by decide, by decide, by decide, by rfl, by decide, by decide⟩

/-- C5 amended: when both guards pass and the input already contains a
word-bounded case-insensitive LIMIT, no `LIMIT 500` is appended: the output
is exactly the identifier-substituted input (so the LIMIT keyword and any
part of the limit expression not hit by an identifier fix key are kept). -/
theorem C5_amended_no_append_when_limit_present (s : List Char)
    (hd : DANGEROUS s = false)
    (hsel : searchWordCI "SELECT".data s = true)
    (hlim : searchWordCI "LIMIT".data s = true) :
    sanitize_sql s = .ok (applyFixes s) := by
  have hfix := searchWordCI_limit_applyFixes s hlim
  simp [sanitize_sql, hd, hsel, hfix]

/-- Witness for the amended C5 on an input with an explicit limit. -/
theorem C5_amended_no_append_when_limit_present_witness :
    DANGEROUS "SELECT x FROM t LIMIT 5".data = false ∧
    searchWordCI "SELECT".data "SELECT x FROM t LIMIT 5".data = true ∧
    searchWordCI "LIMIT".data "SELECT x FROM t LIMIT 5".data = true ∧
    sanitize_sql "SELECT x FROM t LIMIT 5".data =
      .ok (applyFixes "SELECT x FROM t LIMIT 5".data) :=
  ⟨by decide, by decide, by decide,
    C5_amended_no_append_when_limit_present _ (by decide) (by decide) (by decide)⟩

/-- C6: on the concrete input `SELECT vendorid FROM invoices`, `sanitize_sql`
returns exactly `SELECT "vendorId" FROM invoices LIMIT 500`. -/
theorem C6_concrete_example :
    sanitize_sql "SELECT vendorid FROM invoices".data =
      .ok "SELECT \"vendorId\" FROM invoices LIMIT 500".data := by rfl

/-- C7: the generator post-processing reduces the fenced response to exactly
`SELECT 1`, and on a trimmed response with no leading fence and no trailing
triple backtick it changes nothing, so interior backticks are preserved. -/
theorem C7_fence_handling :
    llm_postprocess "```sql\nSELECT 1\n```".data = "SELECT 1".data ∧
    ∀ s : List Char, pyStrip s = s →
      s.take 3 ≠ [btick, btick, btick] →
      s.reverse.take 3 ≠ [btick, btick, btick] →
      s.reverse.take 4 ≠ ['\n', btick, btick, btick] →
      llm_postprocess s = s := by
  constructor
  · rfl
  · intro s h0 h1 h2 h3
    have e1 : stripLeadingFence s = s := by
      unfold stripLeadingFence
      rw [if_neg h1]
    have e2 : stripTrailingTicks s = s := by
      unfold stripTrailingTicks
      rw [if_neg h2, if_neg h3]
    unfold llm_postprocess
    rw [h0, e1, h0, e2, h0]

/-- Witness for C7: a trimmed query with backticks in the interior is
returned unchanged. -/
theorem C7_fence_handling_witness :
    pyStrip "SELECT `a` FROM t".data = "SELECT `a` FROM t".data ∧
    llm_postprocess "SELECT `a` FROM t".data = "SELECT `a` FROM t".data :=
  ⟨by rfl, C7_fence_handling.2 _ (by rfl) (by decide) (by decide) (by decide)⟩

/-- C8: `sanitize_sql` is a deterministic pure function of its string
argument: any two runs on the same input produce the same outcome. -/
theorem C8_sanitize_deterministic (s : List Char)
    (r1 r2 : Except HttpError (List Char))
    (h1 : sanitize_sql s = r1) (h2 : sanitize_sql s = r2) : r1 = r2 := by
  rw [← h1, ← h2]

/-- Witness for C8: two runs on `SELECT 1` agree. -/
theorem C8_sanitize_deterministic_witness :
    (Except.ok "SELECT 1 LIMIT 500".data : Except HttpError (List Char)) =
      Except.ok "SELECT 1 LIMIT 500".data :=
  C8_sanitize_deterministic "SELECT 1".data _ _ rfl rfl

/-- C9: the identifier substitutions are not word-boundary-delimited: inside
`SELECT vendoridentity` the fix key `vendorid` is a proper leading chunk of a
longer identifier, and the output embeds the quoted replacement inside the
longer word, yielding `"vendorId"entity`. -/
theorem C9_substring_rewrite :
    sanitize_sql "SELECT vendoridentity".data =
      .ok "SELECT \"vendorId\"entity LIMIT 500".data ∧
    occursIn "\"vendorId\"entity".data
      "SELECT \"vendorId\"entity LIMIT 500".data = true :=
  ⟨by rfl, by decide⟩

/-- C10: no single-statement enforcement: an interior semicolon separating
two SELECT statements is kept, and `LIMIT 500` is appended only after the
last statement. -/
theorem C10_interior_semicolon_kept :
    sanitize_sql "SELECT 1; SELECT 2".data =
      .ok "SELECT 1; SELECT 2 LIMIT 500".data ∧
    occursIn "1; SELECT 2 LIMIT 500".data
      "SELECT 1; SELECT 2 LIMIT 500".data = true :=
  ⟨by rfl, by decide⟩
